import Mathlib

/-!
Verification of the `deterministic-bloom` crate (wnfs-wg/deterministic-bloom).

We shallowly embed the core of the crate:

* `common.rs` — `HashIndexIterator` (deterministic index generation with
  rejection sampling) and the `Error` type;
* `runtime_size.rs` — the runtime-sized `BloomFilter`;
* `const_size.rs` — the const-generic `BloomFilter<N, K>`.

Modelling decisions:

* Byte slices (`&[u8]`, `Box<[u8]>`, `[u8; N]`) become `List Nat` (one entry
  per byte).  Bit access follows bitvec's `Lsb0` order exactly: bit `i` lives
  in byte `i / 8` at bit position `i % 8` counted from the least significant
  bit.
* The external dependency `xxhash_rust::xxh3::xxh3_64_with_seed` is not part
  of this repository; all theorems are universally quantified over an
  arbitrary deterministic hash function
  `hash : List Nat → Nat → Nat` (item bytes, seed ↦ hash value).  The Rust
  code casts the `u64` result to `usize` and immediately reduces it modulo a
  power of two, so representing the result as an unbounded `Nat` is faithful.
* The rejection-sampling loop in `HashIndexIterator::next` is not primitive
  recursive (for an adversarial hash it never terminates), so the embedding
  threads an explicit `fuel : Nat` bounding how many hash rounds may be
  scanned; every theorem holds for every fuel, hence for every terminating
  execution of the Rust loop.
* Rust's `usize::next_power_of_two` (the least power of two `≥ n`, with
  `0 ↦ 1`) is modelled by a fueled doubling loop `nextPowerOfTwo`, proved
  equal to Lean core's `Nat.nextPowerOfTwo` in `nextPowerOfTwo_eq_core`;
  the fueled form is structurally recursive, so concrete witnesses can be
  checked by kernel reduction.
-/

namespace DeterministicBloom

/-- Model of `xxh3_64_with_seed`-style hash functions: from item bytes and a
seed (the iterator's round counter) to a hash value.  The concrete xxh3
implementation is an external crate, so it stays abstract. -/
abbrev HashFn : Type := List Nat → Nat → Nat

/-- Doubling loop behind `nextPowerOfTwo`: starting from `power`, double
until `n ≤ power`.  The fuel argument only bounds the number of doublings;
`fuel = n` always suffices because `n ≤ 2 ^ n`. -/
def npotGo (n : Nat) : Nat → Nat → Nat
  | 0, power => power
  | f + 1, power => if n ≤ power then power else npotGo n f (power * 2)

/-- Model of Rust's `usize::next_power_of_two`: the least power of two
`≥ n` (and `1` for `n = 0`).  Proved equal to Lean core's
`Nat.nextPowerOfTwo` below. -/
def nextPowerOfTwo (n : Nat) : Nat :=
  npotGo n n 1

/-! ## common.rs: HashIndexIterator -/

/-- Embedding of `HashIndexIterator` from `common.rs`:
fields `item`, `bit_size`, `index` (the round counter, starting at 0). -/
structure HashIndexIterator where
  item : List Nat
  bit_size : Nat
  index : Nat
deriving DecidableEq, Repr

/-- `HashIndexIterator::new(item, bit_size)` — round counter starts at 0. -/
def HashIndexIterator.new (item : List Nat) (bit_size : Nat) : HashIndexIterator :=
  { item := item, bit_size := bit_size, index := 0 }

/-- The rejection-sampling loop body of `HashIndexIterator::next` from
`common.rs`: starting at round `ix`, hash the item with the round as seed,
reduce modulo `po2 = bit_size.next_power_of_two()`, accept values `< bit_size`.
Returns the accepted value together with the round counter after it, or
`none` once `fuel` rounds were scanned without acceptance (the Rust loop
would keep going; all results below hold for every `fuel`). -/
def nextGo (hash : HashFn) (item : List Nat) (bit_size po2 : Nat) :
    Nat → Nat → Option (Nat × Nat)
  | _, 0 => none
  | ix, fuel + 1 =>
    let value := hash item ix % po2
    if value < bit_size then some (value, ix + 1)
    else nextGo hash item bit_size po2 (ix + 1) fuel

/-- Embedding of `HashIndexIterator::next` (`common.rs` lines 75–92),
including the `bit_size == 0` guard that returns `None` before entering the
rejection-sampling loop. -/
def HashIndexIterator.next (hash : HashFn) (fuel : Nat) (it : HashIndexIterator) :
    Option (Nat × HashIndexIterator) :=
  if it.bit_size = 0 then
    -- "This avoids an infinite loop in rejection sampling."
    none
  else
    match nextGo hash it.item it.bit_size (nextPowerOfTwo it.bit_size) it.index fuel with
    | some (v, ix) => some (v, { item := it.item, bit_size := it.bit_size, index := ix })
    | none => none

/-- Collecting `k` values from the iterator (Rust `iterator.take(k)` as used
by `hash_indices`): starting at round `ix`, scan at most `fuel` rounds,
keeping accepted values until `k` of them were produced. -/
def collectGo (hash : HashFn) (item : List Nat) (bit_size po2 : Nat) :
    Nat → Nat → Nat → List Nat
  | 0, _, _ => []
  | _ + 1, 0, _ => []
  | k + 1, fuel + 1, ix =>
    let value := hash item ix % po2
    if value < bit_size then
      value :: collectGo hash item bit_size po2 k fuel (ix + 1)
    else
      collectGo hash item bit_size po2 (k + 1) fuel (ix + 1)

/-- `HashIndexIterator::new(item, bit_size).take(k)`, collected into a list:
the index sequence both filter variants consume.  The `bit_size = 0` guard is
the one from `HashIndexIterator::next`. -/
def hashIndicesOf (hash : HashFn) (fuel : Nat) (item : List Nat)
    (bit_size k : Nat) : List Nat :=
  if bit_size = 0 then []
  else collectGo hash item bit_size (nextPowerOfTwo bit_size) k fuel 0

/-! ## Bit access on byte buffers (bitvec `Lsb0` view over `[u8]`) -/

/-- Reading bit `i` of a byte buffer under bitvec's `Lsb0` order:
byte `i / 8`, bit `i % 8` from the least significant bit.
Used by `contains` (`self.bytes.view_bits::<Lsb0>()[i]`). -/
def getBit (bytes : List Nat) (i : Nat) : Bool :=
  Nat.testBit (bytes.getD (i / 8) 0) (i % 8)

/-- Setting bit `i` of a byte buffer to `true` under `Lsb0` order
(`self.bytes.view_bits_mut::<Lsb0>().set(i, true)`).  bitvec panics when
`i` is out of range; the model makes it a no-op — `mem_hashIndicesOf_lt`
shows the filters only ever pass in-range indices. -/
def setBit (bytes : List Nat) (i : Nat) : List Nat :=
  bytes.set (i / 8) (bytes.getD (i / 8) 0 ||| (1 <<< (i % 8)))

/-! ## runtime_size.rs: BloomFilter -/

namespace RuntimeSize

/-- Embedding of `runtime_size::BloomFilter`: fields `k_hashes` and `bytes`. -/
structure BloomFilter where
  k_hashes : Nat
  bytes : List Nat
deriving DecidableEq, Repr

/-- `BloomFilter::new_with(k_hashes, bytes)` — stores both components
verbatim, with no validation. -/
def BloomFilter.new_with (k_hashes : Nat) (bytes : List Nat) : BloomFilter :=
  { k_hashes := k_hashes, bytes := bytes }

/-- `BloomFilter::hash_count`. -/
def BloomFilter.hash_count (f : BloomFilter) : Nat :=
  f.k_hashes

/-- `BloomFilter::as_bytes`. -/
def BloomFilter.as_bytes (f : BloomFilter) : List Nat :=
  f.bytes

/-- `BloomFilter::hash_indices`:
`HashIndexIterator::new(item, self.bytes.len() * 8).take(self.hash_count())`. -/
def BloomFilter.hash_indices (hash : HashFn) (fuel : Nat) (f : BloomFilter)
    (item : List Nat) : List Nat :=
  hashIndicesOf hash fuel item (f.bytes.length * 8) f.hash_count

/-- `BloomFilter::insert`: set every hash index bit in order. -/
def BloomFilter.insert (hash : HashFn) (fuel : Nat) (f : BloomFilter)
    (item : List Nat) : BloomFilter :=
  { f with bytes := (f.hash_indices hash fuel item).foldl setBit f.bytes }

/-- `BloomFilter::contains`: true iff every hash index bit is set
(the Rust `for` loop returns `false` at the first unset bit). -/
def BloomFilter.contains (hash : HashFn) (fuel : Nat) (f : BloomFilter)
    (item : List Nat) : Bool :=
  (f.hash_indices hash fuel item).all (getBit f.bytes)

/-- Inserting a list of items left to right. -/
def insertAll (hash : HashFn) (fuel : Nat) (f : BloomFilter)
    (items : List (List Nat)) : BloomFilter :=
  items.foldl (fun g item => g.insert hash fuel item) f

end RuntimeSize

/-! ## common.rs: Error -/

/-- Embedding of `common::Error` — the single variant
`VectorImportSizeMismatch` with its `expected` and `actual` fields. -/
inductive Error where
  | VectorImportSizeMismatch (expected : Nat) (actual : Nat)
deriving DecidableEq, Repr

/-! ## const_size.rs: BloomFilter<N, K> -/

namespace ConstSize

/-- Embedding of `const_size::BloomFilter<N, K>`: the `BitArray<[u8; N]>`
backing store, as its `N` raw bytes.  The Rust type fixes the length to `N`
at compile time; here theorems carry `bits.length = N` where they need it. -/
structure BloomFilter (N K : Nat) where
  bits : List Nat
deriving DecidableEq, Repr

/-- `BloomFilter::new()` — all bits unset (`Default::default()` zeroes the
`N`-byte array). -/
def BloomFilter.new (N K : Nat) : BloomFilter N K :=
  { bits := List.replicate N 0 }

/-- `BloomFilter::hash_count` — the const parameter `K`. -/
def BloomFilter.hash_count {N K : Nat} (_ : BloomFilter N K) : Nat :=
  K

/-- `BloomFilter::hash_indices`:
`HashIndexIterator::new(item, N * 8).take(self.hash_count())`. -/
def BloomFilter.hash_indices (hash : HashFn) (fuel : Nat) {N K : Nat}
    (f : BloomFilter N K) (item : List Nat) : List Nat :=
  hashIndicesOf hash fuel item (N * 8) f.hash_count

/-- `BloomFilter::insert`: set every hash index bit in order. -/
def BloomFilter.insert (hash : HashFn) (fuel : Nat) {N K : Nat}
    (f : BloomFilter N K) (item : List Nat) : BloomFilter N K :=
  { bits := (f.hash_indices hash fuel item).foldl setBit f.bits }

/-- `BloomFilter::contains`: `self.hash_indices(item).all(|i| self.bits[i])`. -/
def BloomFilter.contains (hash : HashFn) (fuel : Nat) {N K : Nat}
    (f : BloomFilter N K) (item : List Nat) : Bool :=
  (f.hash_indices hash fuel item).all (getBit f.bits)

/-- `BloomFilter::as_bytes` — `self.bits.as_raw_slice()`, the `N` bytes. -/
def BloomFilter.as_bytes {N K : Nat} (f : BloomFilter N K) : List Nat :=
  f.bits

/-- `Vec<u8>::try_into::<[u8; N]>()`: succeeds exactly when the vector length
is `N`, otherwise gives the vector back (Rust's `TryInto` for arrays). -/
def vecTryIntoArray (N : Nat) (bytes : List Nat) : Except (List Nat) (List Nat) :=
  if bytes.length = N then Except.ok bytes else Except.error bytes

/-- `impl TryFrom<Vec<u8>> for BloomFilter<N, K>` (`const_size.rs`
lines 169–182): convert the vector into an `N`-byte array, mapping a failed
conversion to `Error::VectorImportSizeMismatch` with `expected = N` and
`actual = vec.len()`. -/
def BloomFilter.tryFrom (N K : Nat) (bytes : List Nat) :
    Except Error (BloomFilter N K) :=
  match vecTryIntoArray N bytes with
  | Except.ok arr => Except.ok { bits := arr }
  | Except.error vec =>
      Except.error (Error.VectorImportSizeMismatch N vec.length)

/-- Inserting a list of items left to right. -/
def insertAll (hash : HashFn) (fuel : Nat) {N K : Nat} (f : BloomFilter N K)
    (items : List (List Nat)) : BloomFilter N K :=
  items.foldl (fun g item => g.insert hash fuel item) f

end ConstSize

/-- A small concrete stand-in hash used only to instantiate witnesses:
mixes the item bytes with the seed. -/
def demoHash : HashFn :=
  fun item seed => item.foldl (fun a b => a * 31 + b) seed

/-! ## Helper lemmas: next power of two -/

theorem npotGo_eq_go (n : Nat) :
    ∀ (f p : Nat) (hp : p > 0), n ≤ 2 ^ f * p →
      npotGo n f p = Nat.nextPowerOfTwo.go n p hp := by
  intro f
  induction f with
  | zero =>
    intro p hp hle
    unfold Nat.nextPowerOfTwo.go
    rw [npotGo, if_neg (by omega)]
  | succ f ih =>
    intro p hp hle
    unfold Nat.nextPowerOfTwo.go
    rw [npotGo]
    by_cases h : p < n
    · rw [if_neg (by omega), if_pos h]
      exact ih (p * 2) (by omega)
        (by rw [show 2 ^ f * (p * 2) = 2 ^ (f + 1) * p from by ring]; exact hle)
    · rw [if_pos (by omega), if_neg h]

/-- The fueled model agrees with Lean core's `Nat.nextPowerOfTwo` (and thus
with Rust's `usize::next_power_of_two`) on every input. -/
theorem nextPowerOfTwo_eq_core (n : Nat) :
    nextPowerOfTwo n = Nat.nextPowerOfTwo n := by
  unfold nextPowerOfTwo Nat.nextPowerOfTwo
  exact npotGo_eq_go n n 1 (by omega) (by simpa using (Nat.lt_two_pow n).le)

/-! ## Helper lemmas: rejection sampling -/

/-- `collectGo` is first-filter-then-take: the accepted values among rounds
`[ix, ix + fuel)` in round order, truncated to `k`. -/
theorem collectGo_eq (hash : HashFn) (item : List Nat) (bit_size po2 : Nat) :
    ∀ (fuel k ix : Nat),
      collectGo hash item bit_size po2 k fuel ix =
        (((List.range' ix fuel).map (fun i => hash item i % po2)).filter
          (fun v => v < bit_size)).take k := by
  intro fuel
  induction fuel with
  | zero =>
    intro k ix
    cases k <;> simp [collectGo]
  | succ fuel ih =>
    intro k ix
    cases k with
    | zero => simp [collectGo]
    | succ k =>
      rw [List.range'_succ]
      by_cases h : hash item ix % po2 < bit_size
      · simp [collectGo, h, ih k (ix + 1)]
      · simp [collectGo, h, ih (k + 1) (ix + 1)]

/-- Every index the generator yields is accepted by rejection sampling,
hence strictly below `bit_size`. -/
theorem mem_hashIndicesOf_lt (hash : HashFn) (fuel : Nat) (item : List Nat)
    (bit_size k v : Nat) (hv : v ∈ hashIndicesOf hash fuel item bit_size k) :
    v < bit_size := by
  unfold hashIndicesOf at hv
  by_cases h0 : bit_size = 0
  · simp [h0] at hv
  · rw [if_neg h0, collectGo_eq] at hv
    have := List.mem_of_mem_take hv
    have := List.of_mem_filter this
    simpa using this

/-! ## Helper lemmas: bit access -/

theorem length_setBit (bytes : List Nat) (i : Nat) :
    (setBit bytes i).length = bytes.length := by
  simp [setBit]

theorem getBit_setBit_self (bytes : List Nat) (i : Nat)
    (h : i < bytes.length * 8) :
    getBit (setBit bytes i) i = true := by
  have hlt : i / 8 < bytes.length := by omega
  simp [getBit, setBit, List.getD_eq_getElem?_getD, List.getElem?_set_self hlt,
    Nat.testBit_lor, Nat.shiftLeft_eq, Nat.testBit_two_pow]

theorem getBit_setBit_of_getBit (bytes : List Nat) (i j : Nat)
    (h : getBit bytes i = true) : getBit (setBit bytes j) i = true := by
  unfold getBit setBit at *
  rw [List.getD_eq_getElem?_getD] at h
  rw [List.getD_eq_getElem?_getD, List.getElem?_set]
  split
  next heq =>
    split
    next hlt =>
      rw [Option.getD_some, Nat.testBit_lor, heq, List.getD_eq_getElem?_getD, h]
      simp
    next hnlt =>
      exfalso
      rw [← heq, List.getElem?_eq_none (by omega)] at h
      simp at h
  next hne =>
    exact h

theorem getBit_foldl_setBit_of_getBit (l : List Nat) (bytes : List Nat) (i : Nat)
    (h : getBit bytes i = true) : getBit (l.foldl setBit bytes) i = true := by
  induction l generalizing bytes with
  | nil => exact h
  | cons j l ih => exact ih _ (getBit_setBit_of_getBit _ _ _ h)

theorem length_foldl_setBit (l : List Nat) (bytes : List Nat) :
    (l.foldl setBit bytes).length = bytes.length := by
  induction l generalizing bytes with
  | nil => rfl
  | cons j l ih => rw [List.foldl_cons, ih, length_setBit]

theorem getBit_foldl_setBit_mem (l : List Nat) (bytes : List Nat) (i : Nat)
    (hmem : i ∈ l) (hlt : i < bytes.length * 8) :
    getBit (l.foldl setBit bytes) i = true := by
  induction l generalizing bytes with
  | nil => cases hmem
  | cons j l ih =>
    rw [List.foldl_cons]
    rcases List.mem_cons.mp hmem with rfl | hmem'
    · exact getBit_foldl_setBit_of_getBit _ _ _ (getBit_setBit_self _ _ hlt)
    · exact ih _ hmem' (by rw [length_setBit]; exact hlt)

theorem setBit_comm (bytes : List Nat) (i j : Nat) :
    setBit (setBit bytes i) j = setBit (setBit bytes j) i := by
  unfold setBit
  by_cases hij : i / 8 = j / 8
  · rw [hij]
    by_cases hp : j / 8 < bytes.length
    · rw [List.getD_eq_getElem?_getD (bytes.set _ _), List.getElem?_set_self
        (by simpa using hp), Option.getD_some, List.set_set,
        List.getD_eq_getElem?_getD (bytes.set _ _), List.getElem?_set_self
        (by simpa using hp), Option.getD_some, List.set_set,
        Nat.lor_assoc, Nat.lor_assoc, Nat.lor_comm (1 <<< (i % 8))]
    · have hob : bytes.length ≤ j / 8 := Nat.le_of_not_lt hp
      simp [List.set_eq_of_length_le hob]
  · rw [List.getD_eq_getElem?_getD (bytes.set _ _), List.getElem?_set_ne hij,
      List.getD_eq_getElem?_getD (bytes.set _ _),
      List.getElem?_set_ne (fun hh => hij hh.symm),
      ← List.getD_eq_getElem?_getD, ← List.getD_eq_getElem?_getD,
      List.set_comm _ _ _ hij]

theorem foldl_setBit_setBit (l : List Nat) (bytes : List Nat) (i : Nat) :
    l.foldl setBit (setBit bytes i) = setBit (l.foldl setBit bytes) i := by
  induction l generalizing bytes with
  | nil => rfl
  | cons j l ih => rw [List.foldl_cons, List.foldl_cons, setBit_comm, ih]

theorem foldl_setBit_swap (la lb : List Nat) (bytes : List Nat) :
    lb.foldl setBit (la.foldl setBit bytes) =
      la.foldl setBit (lb.foldl setBit bytes) := by
  induction la generalizing bytes with
  | nil => rfl
  | cons i la ih =>
    rw [List.foldl_cons, List.foldl_cons, ih, foldl_setBit_setBit]

/-! ## Helper lemmas: runtime-size filter -/

namespace RuntimeSize

theorem rt_insert_k_hashes (hash : HashFn) (fuel : Nat) (f : BloomFilter)
    (item : List Nat) : (f.insert hash fuel item).k_hashes = f.k_hashes := rfl

theorem rt_insert_bytes_length (hash : HashFn) (fuel : Nat) (f : BloomFilter)
    (item : List Nat) :
    (f.insert hash fuel item).bytes.length = f.bytes.length :=
  length_foldl_setBit _ _

theorem rt_insertAll_k_hashes (hash : HashFn) (fuel : Nat) (f : BloomFilter)
    (items : List (List Nat)) :
    (insertAll hash fuel f items).k_hashes = f.k_hashes := by
  induction items generalizing f with
  | nil => rfl
  | cons it items ih => exact ih _

theorem rt_insertAll_bytes_length (hash : HashFn) (fuel : Nat) (f : BloomFilter)
    (items : List (List Nat)) :
    (insertAll hash fuel f items).bytes.length = f.bytes.length := by
  induction items generalizing f with
  | nil => rfl
  | cons it items ih =>
    rw [insertAll, List.foldl_cons]
    exact ((ih _).trans (rt_insert_bytes_length hash fuel f it))

theorem rt_getBit_insertAll_of_getBit (hash : HashFn) (fuel : Nat) (f : BloomFilter)
    (items : List (List Nat)) (i : Nat) (h : getBit f.bytes i = true) :
    getBit (insertAll hash fuel f items).bytes i = true := by
  induction items generalizing f with
  | nil => exact h
  | cons it items ih =>
    exact ih _ (getBit_foldl_setBit_of_getBit _ _ _ h)

/-- `hash_indices` depends on the filter only through its byte length and
`k_hashes` — never on the buffer's contents. -/
theorem rt_hash_indices_congr (hash : HashFn) (fuel : Nat) (f g : BloomFilter)
    (item : List Nat) (hlen : f.bytes.length = g.bytes.length)
    (hk : f.k_hashes = g.k_hashes) :
    f.hash_indices hash fuel item = g.hash_indices hash fuel item := by
  unfold BloomFilter.hash_indices BloomFilter.hash_count
  rw [hlen, hk]

/-- Core no-false-negative argument for the runtime-size filter: once an
item is inserted, it is contained, no matter what is inserted afterwards. -/
theorem rt_contains_insertAll_insert (hash : HashFn) (fuel : Nat)
    (f : BloomFilter) (x : List Nat) (post : List (List Nat)) :
    (insertAll hash fuel (f.insert hash fuel x) post).contains hash fuel x = true := by
  rw [BloomFilter.contains, List.all_eq_true]
  intro i hi
  have hidx :
      (insertAll hash fuel (f.insert hash fuel x) post).hash_indices hash fuel x =
        f.hash_indices hash fuel x := by
    apply rt_hash_indices_congr
    · rw [rt_insertAll_bytes_length, rt_insert_bytes_length]
    · rw [rt_insertAll_k_hashes, rt_insert_k_hashes]
  rw [hidx] at hi
  have hlt : i < f.bytes.length * 8 :=
    mem_hashIndicesOf_lt hash fuel x _ _ i hi
  apply rt_getBit_insertAll_of_getBit
  exact getBit_foldl_setBit_mem _ _ _ hi hlt

/-- Two inserts commute. -/
theorem rt_insert_comm (hash : HashFn) (fuel : Nat) (f : BloomFilter)
    (a b : List Nat) :
    (f.insert hash fuel a).insert hash fuel b =
      (f.insert hash fuel b).insert hash fuel a := by
  have hia : (f.insert hash fuel b).hash_indices hash fuel a =
      f.hash_indices hash fuel a :=
    rt_hash_indices_congr hash fuel _ f a (rt_insert_bytes_length hash fuel f b) rfl
  have hib : (f.insert hash fuel a).hash_indices hash fuel b =
      f.hash_indices hash fuel b :=
    rt_hash_indices_congr hash fuel _ f b (rt_insert_bytes_length hash fuel f a) rfl
  unfold BloomFilter.insert at hia hib ⊢
  rw [hia, hib, foldl_setBit_swap]

/-- Inserting a permutation of the same items yields the same filter. -/
theorem rt_insertAll_perm (hash : HashFn) (fuel : Nat) {l₁ l₂ : List (List Nat)}
    (hp : l₁.Perm l₂) (f : BloomFilter) :
    insertAll hash fuel f l₁ = insertAll hash fuel f l₂ := by
  induction hp generalizing f with
  | nil => rfl
  | cons x p ih => exact ih _
  | swap x y l =>
    simp only [insertAll, List.foldl_cons]
    rw [rt_insert_comm]
  | trans p₁ p₂ ih₁ ih₂ => exact (ih₁ f).trans (ih₂ f)

end RuntimeSize

/-! ## Helper lemmas: const-size filter -/

namespace ConstSize

theorem c_insert_bits_length (hash : HashFn) (fuel : Nat) {N K : Nat}
    (f : BloomFilter N K) (item : List Nat) :
    (f.insert hash fuel item).bits.length = f.bits.length :=
  length_foldl_setBit _ _

theorem c_insertAll_bits_length (hash : HashFn) (fuel : Nat) {N K : Nat}
    (f : BloomFilter N K) (items : List (List Nat)) :
    (insertAll hash fuel f items).bits.length = f.bits.length := by
  induction items generalizing f with
  | nil => rfl
  | cons it items ih =>
    rw [insertAll, List.foldl_cons]
    exact ((ih _).trans (c_insert_bits_length hash fuel f it))

theorem c_getBit_insertAll_of_getBit (hash : HashFn) (fuel : Nat) {N K : Nat}
    (f : BloomFilter N K) (items : List (List Nat)) (i : Nat)
    (h : getBit f.bits i = true) :
    getBit (insertAll hash fuel f items).bits i = true := by
  induction items generalizing f with
  | nil => exact h
  | cons it items ih =>
    exact ih _ (getBit_foldl_setBit_of_getBit _ _ _ h)

/-- `hash_indices` of the const-size filter does not depend on the filter
value at all — only on the const parameters `N` and `K`. -/
theorem c_hash_indices_congr (hash : HashFn) (fuel : Nat) {N K : Nat}
    (f g : BloomFilter N K) (item : List Nat) :
    f.hash_indices hash fuel item = g.hash_indices hash fuel item := rfl

/-- Core no-false-negative argument for the const-size filter. -/
theorem c_contains_insertAll_insert (hash : HashFn) (fuel : Nat) {N K : Nat}
    (g : BloomFilter N K) (hg : g.bits.length = N) (x : List Nat)
    (post : List (List Nat)) :
    (insertAll hash fuel (g.insert hash fuel x) post).contains hash fuel x = true := by
  rw [BloomFilter.contains, List.all_eq_true]
  intro i hi
  have hi' : i ∈ g.hash_indices hash fuel x := hi
  have hlt : i < N * 8 :=
    mem_hashIndicesOf_lt hash fuel x (N * 8) K i hi'
  apply c_getBit_insertAll_of_getBit
  exact getBit_foldl_setBit_mem _ _ _ hi' (by rw [hg]; exact hlt)

end ConstSize

/-! ## Helper lemmas: const/runtime agreement -/

/-- After identical insert sequences from identical buffers (of the right
length), the const-size and runtime-size filters hold identical bytes. -/
theorem agree_bytes_aux (hash : HashFn) (fuel : Nat) (N K : Nat)
    (bytes : List Nat) (hlen : bytes.length = N) (items : List (List Nat)) :
    (ConstSize.insertAll hash fuel (⟨bytes⟩ : ConstSize.BloomFilter N K) items).bits =
      (RuntimeSize.insertAll hash fuel ⟨K, bytes⟩ items).bytes := by
  induction items generalizing bytes with
  | nil => rfl
  | cons it items ih =>
    simp only [ConstSize.insertAll, RuntimeSize.insertAll, List.foldl_cons]
    have h1 : ConstSize.BloomFilter.insert hash fuel
        (⟨bytes⟩ : ConstSize.BloomFilter N K) it =
        ⟨(hashIndicesOf hash fuel it (N * 8) K).foldl setBit bytes⟩ := rfl
    have h2 : RuntimeSize.BloomFilter.insert hash fuel
        (⟨K, bytes⟩ : RuntimeSize.BloomFilter) it =
        ⟨K, (hashIndicesOf hash fuel it (bytes.length * 8) K).foldl setBit bytes⟩ := rfl
    rw [h1, h2, hlen]
    exact ih _ (by rw [length_foldl_setBit]; exact hlen)

/-! ## Claim theorems -/

/-- C1: For every filter (const-size or runtime-size) and every item `x`,
after calling `insert(x)` — with any number of other insert calls on the
same filter before or after — `contains(x)` returns true (no false
negatives). -/
theorem bloom_no_false_negatives (hash : HashFn) (fuel : Nat) (x : List Nat)
    (f : RuntimeSize.BloomFilter) (pre post : List (List Nat))
    {N K : Nat} (g : ConstSize.BloomFilter N K) (hg : g.bits.length = N) :
    (RuntimeSize.insertAll hash fuel
        ((RuntimeSize.insertAll hash fuel f pre).insert hash fuel x)
        post).contains hash fuel x = true
  ∧ (ConstSize.insertAll hash fuel
        ((ConstSize.insertAll hash fuel g pre).insert hash fuel x)
        post).contains hash fuel x = true := by
  constructor
  · exact RuntimeSize.rt_contains_insertAll_insert hash fuel _ x post
  · exact ConstSize.c_contains_insertAll_insert hash fuel _
      (by rw [ConstSize.c_insertAll_bits_length]; exact hg) x post

/-- Witness for C1 at concrete inputs. -/
theorem bloom_no_false_negatives_witness :
    (RuntimeSize.insertAll demoHash 8
        ((RuntimeSize.insertAll demoHash 8 ⟨2, [0, 0]⟩ [[2]]).insert demoHash 8 [1])
        [[3]]).contains demoHash 8 [1] = true
  ∧ (ConstSize.insertAll demoHash 8
        ((ConstSize.insertAll demoHash 8 (⟨[0, 0]⟩ : ConstSize.BloomFilter 2 2) [[2]]).insert
          demoHash 8 [1])
        [[3]]).contains demoHash 8 [1] = true :=
  bloom_no_false_negatives demoHash 8 [1] ⟨2, [0, 0]⟩ [[2]] [[3]]
    (⟨[0, 0]⟩ : ConstSize.BloomFilter 2 2) (by decide)

/-- C2: Two freshly constructed filters with identical parameters, fed the
same collection of items in any order, end with byte-identical buffers (both
for the runtime-size and the const-size variant), and the index sequence is
a pure function of (item bytes, bit length, hash count) — it does not
depend on the filter's buffer contents or any per-process state. -/
theorem bloom_insert_deterministic (hash : HashFn) (fuel : Nat) (k n N K : Nat)
    {l₁ l₂ : List (List Nat)} (hp : l₁.Perm l₂)
    (f g : RuntimeSize.BloomFilter) (item : List Nat)
    (hlen : f.bytes.length = g.bytes.length) (hk : f.k_hashes = g.k_hashes) :
    (RuntimeSize.insertAll hash fuel
        (RuntimeSize.BloomFilter.new_with k (List.replicate n 0)) l₁).as_bytes =
      (RuntimeSize.insertAll hash fuel
        (RuntimeSize.BloomFilter.new_with k (List.replicate n 0)) l₂).as_bytes
  ∧ (ConstSize.insertAll hash fuel (ConstSize.BloomFilter.new N K) l₁).as_bytes =
      (ConstSize.insertAll hash fuel (ConstSize.BloomFilter.new N K) l₂).as_bytes
  ∧ f.hash_indices hash fuel item = g.hash_indices hash fuel item := by
  refine ⟨?_, ?_, ?_⟩
  · show (RuntimeSize.insertAll hash fuel _ l₁).bytes =
      (RuntimeSize.insertAll hash fuel _ l₂).bytes
    rw [RuntimeSize.rt_insertAll_perm hash fuel hp]
  · show (ConstSize.insertAll hash fuel _ l₁).bits =
      (ConstSize.insertAll hash fuel _ l₂).bits
    have h₁ := agree_bytes_aux hash fuel N K (List.replicate N 0) (by simp) l₁
    have h₂ := agree_bytes_aux hash fuel N K (List.replicate N 0) (by simp) l₂
    exact h₁.trans ((congrArg RuntimeSize.BloomFilter.bytes
      (RuntimeSize.rt_insertAll_perm hash fuel hp _)).trans h₂.symm)
  · exact RuntimeSize.rt_hash_indices_congr hash fuel f g item hlen hk

/-- Witness for C2 at concrete inputs (two singleton-byte filters with equal
parameters but different buffer contents, and a two-item permutation). -/
theorem bloom_insert_deterministic_witness :
    (RuntimeSize.insertAll demoHash 8
        (RuntimeSize.BloomFilter.new_with 1 (List.replicate 1 0)) [[1], [2]]).as_bytes =
      (RuntimeSize.insertAll demoHash 8
        (RuntimeSize.BloomFilter.new_with 1 (List.replicate 1 0)) [[2], [1]]).as_bytes
  ∧ (ConstSize.insertAll demoHash 8 (ConstSize.BloomFilter.new 1 1) [[1], [2]]).as_bytes =
      (ConstSize.insertAll demoHash 8 (ConstSize.BloomFilter.new 1 1) [[2], [1]]).as_bytes
  ∧ (⟨1, [0]⟩ : RuntimeSize.BloomFilter).hash_indices demoHash 8 [7] =
      (⟨1, [5]⟩ : RuntimeSize.BloomFilter).hash_indices demoHash 8 [7] :=
  bloom_insert_deterministic demoHash 8 1 1 1 1 (by decide)
    ⟨1, [0]⟩ ⟨1, [5]⟩ [7] (by decide) (by decide)

/-- C3: For bit size `M > 0`, every index the generator yields is strictly
below `M`, and consequently every bit access `insert`/`contains` performs on
a runtime-size filter addresses a byte inside the buffer. -/
theorem hash_indices_within_bounds (hash : HashFn) (fuel : Nat)
    (item : List Nat) (M k v : Nat) (_hM : 0 < M)
    (hv : v ∈ hashIndicesOf hash fuel item M k)
    (f : RuntimeSize.BloomFilter) (i : Nat)
    (hi : i ∈ f.hash_indices hash fuel item) :
    v < M ∧ i / 8 < f.bytes.length := by
  constructor
  · exact mem_hashIndicesOf_lt hash fuel item M k v hv
  · have := mem_hashIndicesOf_lt hash fuel item (f.bytes.length * 8)
      f.hash_count i hi
    omega

/-- Witness for C3 at concrete inputs (`M = 5` is not a power of two, so
rejection sampling actually rejects). -/
theorem hash_indices_within_bounds_witness : 4 < 5 ∧ 7 / 8 < 1 :=
  hash_indices_within_bounds demoHash 8 [0] 5 3 4 (by decide) (by decide)
    ⟨2, [0]⟩ 7 (by decide)

/-- C4: An iterator constructed with `bit_size == 0` returns `None` from
`next` immediately (for every fuel, i.e. without entering the rejection
loop), and the generator yields no values at all. -/
theorem hash_index_iterator_zero_bit_size (hash : HashFn) (fuel : Nat)
    (it : HashIndexIterator) (h : it.bit_size = 0) (item : List Nat) (k : Nat) :
    HashIndexIterator.next hash fuel it = none
  ∧ hashIndicesOf hash fuel item 0 k = [] := by
  constructor
  · unfold HashIndexIterator.next
    rw [if_pos h]
  · rfl

/-- Witness for C4 at concrete inputs. -/
theorem hash_index_iterator_zero_bit_size_witness :
    HashIndexIterator.next demoHash 9 (HashIndexIterator.new [3, 1] 0) = none
  ∧ hashIndicesOf demoHash 9 [3, 1] 0 5 = [] :=
  hash_index_iterator_zero_bit_size demoHash 9 (HashIndexIterator.new [3, 1] 0)
    (by decide) [3, 1] 5

/-- C5: A runtime-size filter whose byte buffer has length 0 reports
`contains(item) = true` for every item — the "all hashed bits are set"
check is vacuous because the generator yields no indices. -/
theorem empty_runtime_filter_contains_everything (hash : HashFn) (fuel : Nat)
    (f : RuntimeSize.BloomFilter) (h : f.bytes.length = 0) (item : List Nat) :
    f.contains hash fuel item = true := by
  unfold RuntimeSize.BloomFilter.contains RuntimeSize.BloomFilter.hash_indices
  rw [h]
  rfl

/-- Witness for C5 — the crate's own `empty_bloom_filter` test:
`BloomFilter::new_with(3, Box::new([]))` contains `[1, 2, 3]`. -/
theorem empty_runtime_filter_contains_everything_witness :
    (⟨3, []⟩ : RuntimeSize.BloomFilter).contains demoHash 8 [1, 2, 3] = true :=
  empty_runtime_filter_contains_everything demoHash 8 ⟨3, []⟩ (by decide) [1, 2, 3]

/-- C6: `TryFrom<Vec<u8>>` for the const-size filter succeeds exactly when
the input length equals `N`, and on any other length fails with
`VectorImportSizeMismatch` whose `expected` field is `N` and whose `actual`
field is the input vector's length. -/
theorem const_try_from_size_check (N K : Nat) (bytes : List Nat) :
    (bytes.length = N →
      ConstSize.BloomFilter.tryFrom N K bytes = Except.ok ⟨bytes⟩)
  ∧ (bytes.length ≠ N →
      ConstSize.BloomFilter.tryFrom N K bytes =
        Except.error (Error.VectorImportSizeMismatch N bytes.length)) := by
  constructor <;> intro h <;>
    simp [ConstSize.BloomFilter.tryFrom, ConstSize.vecTryIntoArray, h]

/-- Witness for C6: both the matching-length and the mismatched-length case
at concrete inputs. -/
theorem const_try_from_size_check_witness :
    ConstSize.BloomFilter.tryFrom 2 3 [5, 6] = Except.ok ⟨[5, 6]⟩
  ∧ ConstSize.BloomFilter.tryFrom 4 3 [5, 6] =
      Except.error (Error.VectorImportSizeMismatch 4 2) :=
  ⟨(const_try_from_size_check 2 3 [5, 6]).1 (by decide),
   (const_try_from_size_check 4 3 [5, 6]).2 (by decide)⟩

/-- C7: Round-trip — importing a length-`N` byte vector into the const-size
filter succeeds and `as_bytes` returns exactly the input; for the
runtime-size filter, `new_with(k, bytes)` stores both components verbatim:
`hash_count()` returns `k` and `as_bytes()` returns `bytes`. -/
theorem bloom_round_trip (N K k : Nat) (bytesC bytesR : List Nat)
    (h : bytesC.length = N) :
    Except.map ConstSize.BloomFilter.as_bytes
        (ConstSize.BloomFilter.tryFrom N K bytesC) = Except.ok bytesC
  ∧ (RuntimeSize.BloomFilter.new_with k bytesR).hash_count = k
  ∧ (RuntimeSize.BloomFilter.new_with k bytesR).as_bytes = bytesR := by
  refine ⟨?_, rfl, rfl⟩
  simp [ConstSize.BloomFilter.tryFrom, ConstSize.vecTryIntoArray, h,
    Except.map, ConstSize.BloomFilter.as_bytes]

/-- Witness for C7 at concrete inputs. -/
theorem bloom_round_trip_witness :
    Except.map ConstSize.BloomFilter.as_bytes
        (ConstSize.BloomFilter.tryFrom 3 7 [1, 2, 3]) = Except.ok [1, 2, 3]
  ∧ (RuntimeSize.BloomFilter.new_with 5 [9, 9]).hash_count = 5
  ∧ (RuntimeSize.BloomFilter.new_with 5 [9, 9]).as_bytes = [9, 9] :=
  bloom_round_trip 3 7 5 [1, 2, 3] [9, 9] (by decide)

/-- C8: The const-size `BloomFilter<N, K>` and the runtime-size filter
constructed with `k_hashes = K` over an all-zero `N`-byte buffer stay
byte-identical under the same insert sequence, agree on `contains` for every
item, and consume the same index sequence (both delegate to the generator
over bit length `N * 8`, taking `K` indices). -/
theorem const_runtime_equivalence (hash : HashFn) (fuel : Nat) (N K : Nat)
    (items : List (List Nat)) (y : List Nat) :
    (ConstSize.insertAll hash fuel (ConstSize.BloomFilter.new N K) items).as_bytes =
      (RuntimeSize.insertAll hash fuel
        (RuntimeSize.BloomFilter.new_with K (List.replicate N 0)) items).as_bytes
  ∧ (ConstSize.insertAll hash fuel (ConstSize.BloomFilter.new N K) items).contains
        hash fuel y =
      (RuntimeSize.insertAll hash fuel
        (RuntimeSize.BloomFilter.new_with K (List.replicate N 0)) items).contains
        hash fuel y
  ∧ (ConstSize.insertAll hash fuel (ConstSize.BloomFilter.new N K) items).hash_indices
        hash fuel y =
      (RuntimeSize.insertAll hash fuel
        (RuntimeSize.BloomFilter.new_with K (List.replicate N 0)) items).hash_indices
        hash fuel y := by
  have hbytes :
      (ConstSize.insertAll hash fuel (ConstSize.BloomFilter.new N K) items).bits =
        (RuntimeSize.insertAll hash fuel
          (RuntimeSize.BloomFilter.new_with K (List.replicate N 0)) items).bytes :=
    agree_bytes_aux hash fuel N K (List.replicate N 0) (by simp) items
  have hk : (RuntimeSize.insertAll hash fuel
      (RuntimeSize.BloomFilter.new_with K (List.replicate N 0)) items).k_hashes = K := by
    rw [RuntimeSize.rt_insertAll_k_hashes]
    rfl
  have hlen : (RuntimeSize.insertAll hash fuel
      (RuntimeSize.BloomFilter.new_with K (List.replicate N 0)) items).bytes.length = N := by
    rw [RuntimeSize.rt_insertAll_bytes_length]
    simp [RuntimeSize.BloomFilter.new_with]
  refine ⟨hbytes, ?_, ?_⟩
  · unfold RuntimeSize.BloomFilter.contains ConstSize.BloomFilter.contains
      RuntimeSize.BloomFilter.hash_indices ConstSize.BloomFilter.hash_indices
      RuntimeSize.BloomFilter.hash_count ConstSize.BloomFilter.hash_count
    rw [hk, hlen, hbytes]
  · unfold RuntimeSize.BloomFilter.hash_indices ConstSize.BloomFilter.hash_indices
      RuntimeSize.BloomFilter.hash_count ConstSize.BloomFilter.hash_count
    rw [hk, hlen]

/-- C10: A runtime-size filter built by `new_with` with `k_hashes = 0` is
accepted as-is; on it `insert` leaves the byte buffer unchanged and
`contains` returns true for every item, because `hash_indices` takes zero
elements from the index iterator. -/
theorem runtime_zero_k_hashes (hash : HashFn) (fuel : Nat)
    (bytes item : List Nat) :
    ((RuntimeSize.BloomFilter.new_with 0 bytes).insert hash fuel item).as_bytes = bytes
  ∧ (RuntimeSize.BloomFilter.new_with 0 bytes).contains hash fuel item = true
  ∧ (RuntimeSize.BloomFilter.new_with 0 bytes).hash_indices hash fuel item = [] := by
  have hidx : (RuntimeSize.BloomFilter.new_with 0 bytes).hash_indices hash fuel item = [] := by
    show hashIndicesOf hash fuel item (bytes.length * 8) 0 = []
    unfold hashIndicesOf
    split
    · rfl
    · simp [collectGo]
  refine ⟨?_, ?_, hidx⟩
  · show ((RuntimeSize.BloomFilter.new_with 0 bytes).hash_indices hash fuel item).foldl
      setBit bytes = bytes
    rw [hidx]
    rfl
  · unfold RuntimeSize.BloomFilter.contains
    rw [hidx]
    rfl

end DeterministicBloom
